import Mathlib

/-!
Verification of the TwitterBot feed-polling / sentiment-flip core (`src/main.py`).

The Python program is shallowly embedded: the SQLite `sentiment_history` table
becomes a list of rows carrying an explicit `rowid` (insertion order) and
`created_at` (clock value at insert time); the cursor file becomes an
`Option String` (file contents, or absent); the Discord channel, the Groq
classifier and the send-success oracle are injected functions; exceptions are
modelled with `Except`.  A tick of `poll_feed` is a pure function from a feed
snapshot and a world state to a new world state.
-/

namespace TwitterBot

/-- A parsed RSS feed entry (`feedparser` entry).  `content` stands for the
Python-side `entry.get('summary', entry.get('title', ''))` extraction. -/
structure Entry where
  id : String
  link : String
  author : String
  content : String
deriving DecidableEq, Repr

/-- The JSON object returned by the Groq classifier (`analyze_sentiment`).
Fields mirror the keys read with `analysis.get(...)` in `main.py`. -/
structure Analysis where
  tickers : List String
  sentiment : String
  bull_case : String
  bear_case : String
  summary : String
deriving DecidableEq, Repr

/-- One row of the `sentiment_history` table.  `rowid` is the AUTOINCREMENT
primary key (insertion order); `created_at` is the `CURRENT_TIMESTAMP`
default, modelled as a natural-number clock value. -/
structure Row where
  rowid : Nat
  tweet_id : String
  tweet_url : String
  author : String
  content : String
  tickers : List String
  sentiment : String
  bull_case : String
  bear_case : String
  summary : String
  created_at : Nat
deriving DecidableEq, Repr

/-- The SQLite database state: the rows of `sentiment_history` in insertion
order, plus the next AUTOINCREMENT id. -/
structure DB where
  rows : List Row
  nextRowid : Nat
deriving DecidableEq, Repr

/-- A sentiment-flip event, as built by `check_sentiment_flip`
(`{"ticker": ..., "old": ..., "new": ...}`). -/
structure Flip where
  ticker : String
  old : String
  new : String
deriving DecidableEq, Repr

/-- The configuration surface read from the environment in `main.py`. -/
structure Config where
  nitter_instances : List String
  ticker_filters : List String
  sentiment_enabled : Bool
  flip_alerts_enabled : Bool
deriving DecidableEq, Repr

/-- Uppercase a string, as Python `str.upper()` on ASCII text
(`Char.toUpper` only affects basic latin letters, matching the tickers the
program manipulates). -/
def strUpper (s : String) : String :=
  String.mk (s.toList.map Char.toUpper)

/-- Python `ticker.upper().lstrip("$")` — the ticker normalization used by
`check_sentiment_flip` and `should_analyze`. -/
def normTicker (t : String) : String :=
  String.mk ((t.toList.map Char.toUpper).dropWhile (fun c => c == '$'))

/-- Function `should_analyze` from `main.py`: pass everything when no filters are
configured, otherwise require a nonempty intersection of the normalized
detected tickers with the normalized filter list. -/
def should_analyze (cfg : Config) (tickers : List String) : Bool :=
  if cfg.ticker_filters.isEmpty then true
  else
    let detected_upper := tickers.map normTicker
    let filters_upper := cfg.ticker_filters.map normTicker
    detected_upper.any (fun t => filters_upper.contains t)

/-- The whitespace characters stripped by Python `str.strip()`
(space, tab, newline, carriage return, vertical tab, form feed). -/
def pyWhitespace (c : Char) : Bool :=
  c == ' ' || c == '\t' || c == '\n' || c == '\r' ||
    c == Char.ofNat 11 || c == Char.ofNat 12

/-- Python `str.strip()`: drop leading and trailing whitespace. -/
def pyStrip (s : String) : String :=
  String.mk (((s.toList.dropWhile pyWhitespace).reverse.dropWhile pyWhitespace).reverse)

/-- Function `load_last_id`: read the cursor file; a missing file yields `None`, and
`f.read().strip() or None` collapses an all-whitespace file to `None`. -/
def load_last_id (file : Option String) : Option String :=
  match file with
  | none => none
  | some raw => if pyStrip raw = "" then none else some (pyStrip raw)

/-- Function `save_last_id`: overwrite the cursor file with the tweet id. -/
def save_last_id (file : Option String) (tweet_id : String) : Option String :=
  some tweet_id

/-- Fuel-driven worker for Python `str.replace(old, new)` (replace all
non-overlapping occurrences, left to right).  `old` is nonempty at every
call site, so each step consumes at least one character and
`fuel = length + 1` suffices. -/
def replaceAllAux (old new : List Char) : Nat → List Char → List Char
  | _, [] => []
  | 0, s => s
  | fuel + 1, c :: rest =>
    if old.isPrefixOf (c :: rest) then
      new ++ replaceAllAux old new fuel ((c :: rest).drop old.length)
    else
      c :: replaceAllAux old new fuel rest

/-- Python `s.replace(old, new)` for nonempty `old`. -/
def replaceAll (s old new : String) : String :=
  if old.toList.isEmpty then s
  else String.mk (replaceAllAux old.toList new.toList (s.toList.length + 1) s.toList)

/-- Function `nitter_to_twitter`: rewrite any Nitter permalink to a twitter.com one. -/
def nitter_to_twitter (instances : List String) (url : String) : String :=
  let u := instances.foldl
    (fun u inst =>
      replaceAll (replaceAll u ("https://" ++ inst) ("https://twitter.com"))
        ("http://" ++ inst) ("https://twitter.com"))
    url
  replaceAll u ("http://") ("https://")

/-- Rendering by `json.dumps` of a ticker, as it appears inside the stored `tickers`
column: the string surrounded by double quotes. -/
def quotedChars (t : String) : List Char :=
  '"' :: t.toList ++ ['"']

/-- The comma-space-joined quoted elements of `json.dumps(tickers)`. -/
def elemsChars : List String → List Char
  | [] => []
  | [t] => quotedChars t
  | t :: t2 :: ts => quotedChars t ++ ',' :: ' ' :: elemsChars (t2 :: ts)

/-- Rendering of `json.dumps(tickers)` as a character list: `["A", "B"]`. -/
def jsonChars (ts : List String) : List Char :=
  '[' :: elemsChars ts ++ [']']

/-- The SQL predicate `tickers LIKE '%"T"%'` of `get_last_sentiment`: an
ASCII-case-insensitive substring test of `"T"` against the stored JSON text
(faithful for tickers without the LIKE metacharacters `%` and `_`, which no
ticker in this development contains). -/
def matchesTicker (ticker : String) (r : Row) : Bool :=
  decide ((quotedChars ticker).map Char.toUpper <:+: (jsonChars r.tickers).map Char.toUpper)

/-- A character of a normalized ticker: uppercase basic-latin letter or
digit.  For these, `Char.toUpper` is the identity, and none of the JSON
punctuation (quote, comma, space, brackets) or LIKE metacharacters
(`%`, `_`) is plain. -/
def plainChar (c : Char) : Bool :=
  decide ((65 ≤ c.toNat ∧ c.toNat ≤ 90) ∨ (48 ≤ c.toNat ∧ c.toNat ≤ 57))

/-- A normalized ticker string: nonempty, all characters plain. -/
def plainTicker (t : String) : Bool :=
  !t.toList.isEmpty && t.toList.all plainChar

/-- The `ORDER BY created_at DESC LIMIT 1` comparison: `a` sorts no later than
`b` when its timestamp is older, or equal with a smaller rowid (equal
timestamps are returned in descending rowid order by the descending scan of
`idx_created_at`, so the later insert wins). -/
def rowLE (a b : Row) : Bool :=
  decide (a.created_at < b.created_at ∨
    (a.created_at = b.created_at ∧ a.rowid ≤ b.rowid))

/-- The row selected by `ORDER BY created_at DESC LIMIT 1` from a candidate
list: the maximum under `rowLE`, preferring rows later in insertion order on
ties. -/
def pickLatest : List Row → Option Row
  | [] => none
  | r :: rs =>
    match pickLatest rs with
    | none => some r
    | some b => if rowLE r b then some b else some r

/-- Function `get_last_sentiment`: the sentiment of the most recent row whose stored
tickers JSON matches `LIKE '%"ticker"%'`, or `None` when no row matches. -/
def get_last_sentiment (db : DB) (ticker : String) : Option String :=
  (pickLatest (db.rows.filter (fun r => matchesTicker ticker r))).map
    (fun r => r.sentiment)

/-- Function `save_sentiment`: `INSERT OR REPLACE` keyed on the UNIQUE `tweet_id` —
any existing row for the same source item is deleted and a fresh row is
appended with a new rowid and the current timestamp.  The tickers list is
stored verbatim (`json.dumps(analysis.get("tickers", []))` — no
normalization). -/
def save_sentiment (instances : List String) (db : DB) (now : Nat)
    (entry : Entry) (analysis : Analysis) : DB :=
  { rows := db.rows.filter (fun r => r.tweet_id ≠ entry.id) ++
      [{ rowid := db.nextRowid
         tweet_id := entry.id
         tweet_url := nitter_to_twitter instances entry.link
         author := entry.author
         content := entry.content
         tickers := analysis.tickers
         sentiment := analysis.sentiment
         bull_case := analysis.bull_case
         bear_case := analysis.bear_case
         summary := analysis.summary
         created_at := now }]
    nextRowid := db.nextRowid + 1 }

/-- Function `check_sentiment_flip`: gated on `FLIP_ALERTS_ENABLED`; no flips for a
NEUTRAL new signal; per ticker (in declaration order) query the ledger for
the normalized ticker and emit a flip when the prior sentiment is truthy
(nonempty), not NEUTRAL and different from the new signal. -/
def check_sentiment_flip (cfg : Config) (db : DB) (analysis : Analysis) : List Flip :=
  if cfg.flip_alerts_enabled = false then []
  else
    let new_sentiment := strUpper analysis.sentiment
    if new_sentiment = "NEUTRAL" then []
    else
      analysis.tickers.filterMap (fun ticker =>
        let ticker_upper := normTicker ticker
        match get_last_sentiment db ticker_upper with
        | none => none
        | some old_sentiment =>
          if old_sentiment ≠ "" ∧ old_sentiment ≠ "NEUTRAL" ∧
              old_sentiment ≠ new_sentiment then
            some { ticker := ticker_upper, old := old_sentiment, new := new_sentiment }
          else none)

/-- The flip-emission rule as the spec states it (§4.3), for comparison with
`check_sentiment_flip`: skip when the new signal is NEUTRAL; per symbol in
declaration order, emit exactly one event when the prior signal is in
{BUY, SELL} and differs from the new signal, and nothing when the prior is
absent or NEUTRAL. -/
def specFlipEvents (db : DB) (analysis : Analysis) : List Flip :=
  let new_sentiment := strUpper analysis.sentiment
  if new_sentiment = "NEUTRAL" then []
  else
    analysis.tickers.filterMap (fun ticker =>
      let ticker_upper := normTicker ticker
      match get_last_sentiment db ticker_upper with
      | none => none
      | some prior =>
        if (prior = "BUY" ∨ prior = "SELL") ∧ prior ≠ new_sentiment then
          some { ticker := ticker_upper, old := prior, new := new_sentiment }
        else none)

/-- The diff loop of `poll_feed`: walk the snapshot newest-first, collecting
entries until one with the cursor id is met (`entry.id == last_id`; never
true when the cursor is absent). -/
def newEntries : List Entry → Option String → List Entry
  | [], _ => []
  | e :: es, last_id =>
    if some e.id = last_id then [] else e :: newEntries es last_id

/-- The observable state threaded through one tick: cursor file, database,
the base notifications posted to the channel (in order), the flip alerts
sent, the analysis threads opened, and the insertion clock. -/
structure World where
  cursorFile : Option String
  db : DB
  sent : List String
  flipAlerts : List Flip
  threads : List (String × Analysis)
  now : Nat
deriving DecidableEq, Repr

/-- The enrichment stage of the per-item pipeline (everything after the base
notification): classify, filter, persist, then flip-detect — note the
source order: `save_sentiment` runs BEFORE `check_sentiment_flip`, so the
flip query sees the freshly upserted record. -/
def enrichEntry (cfg : Config) (classify : Entry → Option Analysis)
    (w : World) (e : Entry) : World :=
  if cfg.sentiment_enabled = false then w
  else
    match classify e with
    | none => w
    | some analysis =>
      if analysis.tickers = [] then w
      else if should_analyze cfg analysis.tickers then
        let db1 := save_sentiment cfg.nitter_instances w.db w.now e analysis
        { w with
          db := db1
          now := w.now + 1
          flipAlerts := w.flipAlerts ++ check_sentiment_flip cfg db1 analysis
          threads := w.threads ++ [(e.id, analysis)] }
      else w

/-- One iteration of the `for entry in reversed(new_entries)` loop:
`channel.send` first (raising on failure, per the oracle `sendOk`), then the
enrichment stage.  A raised exception propagates to the tick-level handler. -/
def processEntry (cfg : Config) (classify : Entry → Option Analysis)
    (sendOk : Entry → Bool) (w : World) (e : Entry) : Except String World :=
  if sendOk e = true then
    Except.ok (enrichEntry cfg classify
      { w with sent := w.sent ++ [nitter_to_twitter cfg.nitter_instances e.link] } e)
  else
    Except.error ("DeliveryError")

/-- Run the loop body over the ordered new entries; the boolean records
whether the loop completed without an exception (the code has a single
try/except around the whole cycle, so the first raise aborts the rest). -/
def runEntries (cfg : Config) (classify : Entry → Option Analysis)
    (sendOk : Entry → Bool) : World → List Entry → World × Bool
  | w, [] => (w, true)
  | w, e :: es =>
    match processEntry cfg classify sendOk w e with
    | Except.error _ => (w, false)
    | Except.ok w1 => runEntries cfg classify sendOk w1 es

/-- One tick of `poll_feed`, from the point where the feed snapshot is in
hand: empty snapshot → quiescent return; diff against the cursor; process
oldest-first; save the snapshot head id only if no exception was raised
(the `except` clause swallows the error, keeping partial effects). -/
def poll_feed (cfg : Config) (classify : Entry → Option Analysis)
    (sendOk : Entry → Bool) (w : World) (entries : List Entry) : World :=
  match entries with
  | [] => w
  | e0 :: _ =>
    let last_id := load_last_id w.cursorFile
    let nes := newEntries entries last_id
    if nes = [] then w
    else
      match runEntries cfg classify sendOk w nes.reverse with
      | (w1, true) => { w1 with cursorFile := save_last_id w1.cursorFile e0.id }
      | (w1, false) => w1

/-! ## Concrete fixtures used by witnesses and counterexamples -/

/-- A configuration with everything enabled and no ticker filter. -/
def cfgD : Config :=
  { nitter_instances := ["nitter.net"], ticker_filters := [],
    sentiment_enabled := true, flip_alerts_enabled := true }

/-- An empty database. -/
def dbEmpty : DB := { rows := [], nextRowid := 1 }

/-- A ledger row recording a BUY sentiment for BTC from item `t1`. -/
def rowBtcBuy : Row :=
  { rowid := 1, tweet_id := "t1", tweet_url := "u1", author := "a",
    content := "c", tickers := ["BTC"], sentiment := "BUY", bull_case := "",
    bear_case := "", summary := "", created_at := 0 }

/-- A ledger whose most recent (only) record for BTC has signal BUY. -/
def dbBtc : DB := { rows := [rowBtcBuy], nextRowid := 2 }

/-- A fresh feed item. -/
def entryT2 : Entry :=
  { id := "t2", link := "https://nitter.net/x/status/2", author := "a", content := "c2" }

/-- A classification of `entryT2`: symbols `[BTC]`, signal SELL. -/
def sellBtc : Analysis :=
  { tickers := ["BTC"], sentiment := "SELL", bull_case := "", bear_case := "", summary := "" }

/-- A classification with the raw (un-normalized) ticker `$BTC` and signal BUY. -/
def dollarBtcBuy : Analysis :=
  { tickers := ["$BTC"], sentiment := "BUY", bull_case := "", bear_case := "", summary := "" }

/-- An initial world with an empty ledger and no cursor. -/
def worldEmpty : World :=
  { cursorFile := none, db := dbEmpty, sent := [], flipAlerts := [], threads := [], now := 1 }

/-- The world whose ledger is `dbBtc`, cursor at `t1`. -/
def worldBtc : World :=
  { cursorFile := some "t1", db := dbBtc, sent := [], flipAlerts := [], threads := [], now := 1 }

/-- A classifier that always fails (models a Groq error: `analyze_sentiment`
returns `None`). -/
def classifyNone : Entry → Option Analysis := fun _ => none

/-- A channel that accepts every send. -/
def sendAll : Entry → Bool := fun _ => true

/-- Three feed items, oldest `i1`, newest `i3`. -/
def eI1 : Entry := { id := "i1", link := "l1", author := "a", content := "c" }

def eI2 : Entry := { id := "i2", link := "l2", author := "a", content := "c" }

def eI3 : Entry := { id := "i3", link := "l3", author := "a", content := "c" }

/-- A channel whose send fails exactly for item `i2`. -/
def sendFail2 : Entry → Bool := fun e => !(e.id == "i2")

/-- A one-item feed entry for witnesses. -/
def eA : Entry := { id := "a1", link := "la", author := "x", content := "y" }

/-- The world after the base notification for `eA` with no enrichment. -/
def worldA : World :=
  { cursorFile := none, db := dbEmpty, sent := ["la"], flipAlerts := [], threads := [], now := 1 }

/-- The world whose stored cursor is item `a1`. -/
def worldCurA : World :=
  { cursorFile := some "a1", db := dbEmpty, sent := [], flipAlerts := [], threads := [], now := 1 }

/-- Entries for the C5 witness: snapshot `[eI3, eI2, eI1, eC, eOld]`. -/
def eC : Entry := { id := "c0", link := "lc", author := "a", content := "c" }

def eOld : Entry := { id := "o0", link := "lo", author := "a", content := "c" }

/-- The world whose stored cursor is item `c0`. -/
def worldCurC : World :=
  { cursorFile := some "c0", db := dbEmpty, sent := [], flipAlerts := [], threads := [], now := 1 }

/-- The allow-list `{BTC}` configuration. -/
def cfgBtcOnly : Config :=
  { nitter_instances := ["nitter.net"], ticker_filters := ["BTC"],
    sentiment_enabled := true, flip_alerts_enabled := true }

/-- A classification with symbols `[ETH]` only. -/
def ethBuy : Analysis :=
  { tickers := ["ETH"], sentiment := "BUY", bull_case := "", bear_case := "", summary := "" }

/-! ## Helper lemmas about the pipeline -/

theorem enrichEntry_cursorFile (cfg : Config) (classify : Entry → Option Analysis)
    (w : World) (e : Entry) : (enrichEntry cfg classify w e).cursorFile = w.cursorFile := by
  unfold enrichEntry
  split
  · rfl
  · split
    · rfl
    · split
      · rfl
      · split
        · rfl
        · rfl

theorem enrichEntry_sent (cfg : Config) (classify : Entry → Option Analysis)
    (w : World) (e : Entry) : (enrichEntry cfg classify w e).sent = w.sent := by
  unfold enrichEntry
  split
  · rfl
  · split
    · rfl
    · split
      · rfl
      · split
        · rfl
        · rfl

theorem processEntry_ok_eq (cfg : Config) (classify : Entry → Option Analysis)
    (sendOk : Entry → Bool) (w : World) (e : Entry) (h : sendOk e = true) :
    processEntry cfg classify sendOk w e =
      Except.ok (enrichEntry cfg classify
        { w with sent := w.sent ++ [nitter_to_twitter cfg.nitter_instances e.link] } e) := by
  simp [processEntry, h]

theorem processEntry_error_eq (cfg : Config) (classify : Entry → Option Analysis)
    (sendOk : Entry → Bool) (w : World) (e : Entry) (h : sendOk e = false) :
    processEntry cfg classify sendOk w e = Except.error ("DeliveryError") := by
  simp [processEntry, h]

theorem runEntries_nil (cfg : Config) (classify : Entry → Option Analysis)
    (sendOk : Entry → Bool) (w : World) :
    runEntries cfg classify sendOk w [] = (w, true) := rfl

theorem runEntries_cons (cfg : Config) (classify : Entry → Option Analysis)
    (sendOk : Entry → Bool) (w : World) (e : Entry) (es : List Entry) :
    runEntries cfg classify sendOk w (e :: es) =
      (match processEntry cfg classify sendOk w e with
       | Except.error _ => (w, false)
       | Except.ok w1 => runEntries cfg classify sendOk w1 es) := rfl

theorem runEntries_cursorFile (cfg : Config) (classify : Entry → Option Analysis)
    (sendOk : Entry → Bool) :
    ∀ (es : List Entry) (w : World),
      (runEntries cfg classify sendOk w es).1.cursorFile = w.cursorFile := by
  intro es
  induction es with
  | nil => intro w; rfl
  | cons e es ih =>
    intro w
    cases hs : sendOk e with
    | false =>
      simp only [runEntries_cons, processEntry_error_eq cfg classify sendOk w e hs]
    | true =>
      simp only [runEntries_cons, processEntry_ok_eq cfg classify sendOk w e hs]
      rw [ih]
      exact enrichEntry_cursorFile ..

theorem runEntries_fail_head (cfg : Config) (classify : Entry → Option Analysis)
    (sendOk : Entry → Bool) (w : World) (e : Entry) (es : List Entry)
    (h : sendOk e = false) :
    runEntries cfg classify sendOk w (e :: es) = (w, false) := by
  simp only [runEntries_cons, processEntry_error_eq cfg classify sendOk w e h]

theorem runEntries_append_eq (cfg : Config) (classify : Entry → Option Analysis)
    (sendOk : Entry → Bool) :
    ∀ (l1 l2 : List Entry) (w w1 : World) (ok : Bool),
      runEntries cfg classify sendOk w l1 = (w1, ok) →
      runEntries cfg classify sendOk w (l1 ++ l2) =
        (if ok then runEntries cfg classify sendOk w1 l2 else (w1, false)) := by
  intro l1
  induction l1 with
  | nil =>
    intro l2 w w1 ok h
    rw [runEntries_nil] at h
    cases h
    simp
  | cons e l1 ih =>
    intro l2 w w1 ok h
    rw [runEntries_cons] at h
    rw [List.cons_append, runEntries_cons]
    cases hp : processEntry cfg classify sendOk w e with
    | error msg =>
      rw [hp] at h
      simp only at h
      cases h
      simp
    | ok w2 =>
      rw [hp] at h
      simp only at h
      exact ih l2 w2 w1 ok h

theorem runEntries_sendAll (cfg : Config) (classify : Entry → Option Analysis)
    (sendOk : Entry → Bool) :
    ∀ (es : List Entry) (w : World), (∀ e ∈ es, sendOk e = true) →
      (runEntries cfg classify sendOk w es).2 = true ∧
      (runEntries cfg classify sendOk w es).1.sent =
        w.sent ++ es.map (fun e => nitter_to_twitter cfg.nitter_instances e.link) := by
  intro es
  induction es with
  | nil => intro w _; exact ⟨rfl, by simp [runEntries_nil]⟩
  | cons e es ih =>
    intro w hall
    have hs : sendOk e = true := hall e (by simp)
    have hrest : ∀ x ∈ es, sendOk x = true := fun x hx => hall x (by simp [hx])
    simp only [runEntries_cons, processEntry_ok_eq cfg classify sendOk w e hs]
    obtain ⟨h1, h2⟩ := ih (enrichEntry cfg classify
      { w with sent := w.sent ++ [nitter_to_twitter cfg.nitter_instances e.link] } e) hrest
    refine ⟨h1, ?_⟩
    rw [h2, enrichEntry_sent]
    simp

theorem poll_feed_nil (cfg : Config) (classify : Entry → Option Analysis)
    (sendOk : Entry → Bool) (w : World) :
    poll_feed cfg classify sendOk w [] = w := rfl

theorem poll_feed_cons (cfg : Config) (classify : Entry → Option Analysis)
    (sendOk : Entry → Bool) (w : World) (e0 : Entry) (rest : List Entry) :
    poll_feed cfg classify sendOk w (e0 :: rest) =
      (if newEntries (e0 :: rest) (load_last_id w.cursorFile) = [] then w
       else
         match runEntries cfg classify sendOk w
             (newEntries (e0 :: rest) (load_last_id w.cursorFile)).reverse with
         | (w1, true) => { w1 with cursorFile := save_last_id w1.cursorFile e0.id }
         | (w1, false) => w1) := rfl

/-! ## Claim theorems -/

/-- C1 (code_bug): flip detection is supposed to read the ledger state that
excludes the record being evaluated, so that a ledger with `BTC → BUY`
followed by a record `[BTC]/SELL` yields exactly one FlipEvent
`{BTC, BUY, SELL}`.  The pre-upsert ledger indeed holds `BUY` for BTC and
evaluating the detector against it yields exactly that event — but
`poll_feed` calls `save_sentiment` BEFORE `check_sentiment_flip`, so the
detector queries the post-upsert ledger, sees the record's own SELL signal,
and emits nothing; the pipeline stage produces zero flip alerts. -/
theorem C1_flip_reads_post_upsert_state :
    get_last_sentiment dbBtc "BTC" = some "BUY" ∧
    check_sentiment_flip cfgD dbBtc sellBtc =
      [{ ticker := "BTC", old := "BUY", new := "SELL" }] ∧
    check_sentiment_flip cfgD
      (save_sentiment cfgD.nitter_instances dbBtc 1 entryT2 sellBtc) sellBtc = [] ∧
    (enrichEntry cfgD (fun _ => some sellBtc) worldBtc entryT2).flipAlerts = [] := by
  decide

/-- C2 (counterexample): with three new items processed oldest-first
(`i1, i2, i3`) and the channel send failing exactly on `i2`, item `i3`
never receives a base notification (only `i1`'s was sent) and the cursor is
not advanced — the failure is fatal for the cycle, not per-item. -/
theorem C2_counterexample_send_failure_aborts_cycle :
    (poll_feed cfgD classifyNone sendFail2 worldEmpty [eI3, eI2, eI1]).sent = ["l1"] ∧
    (poll_feed cfgD classifyNone sendFail2 worldEmpty [eI3, eI2, eI1]).cursorFile = none := by
  decide

/-- C2 (amended): a failure while sending the base notification for one item
is fatal for the whole cycle: the tick's result is exactly the state after
the successfully processed prefix — no later item is attempted — and the
cursor is not advanced, so the whole batch is retried next tick. -/
theorem C2_amended_send_failure_is_fatal (cfg : Config)
    (classify : Entry → Option Analysis) (sendOk : Entry → Bool) (w : World)
    (entries pre suf : List Entry) (e : Entry)
    (hsplit : (newEntries entries (load_last_id w.cursorFile)).reverse = pre ++ e :: suf)
    (hfail : sendOk e = false) :
    poll_feed cfg classify sendOk w entries =
      (runEntries cfg classify sendOk w pre).1 ∧
    (poll_feed cfg classify sendOk w entries).cursorFile = w.cursorFile := by
  cases entries with
  | nil => simp [newEntries] at hsplit
  | cons e0 rest =>
    have hne : newEntries (e0 :: rest) (load_last_id w.cursorFile) ≠ [] := by
      intro h0
      rw [h0] at hsplit
      simp at hsplit
    rcases hp : runEntries cfg classify sendOk w pre with ⟨wp, okp⟩
    have hrunfull : runEntries cfg classify sendOk w
        (newEntries (e0 :: rest) (load_last_id w.cursorFile)).reverse = (wp, false) := by
      rw [hsplit]
      rw [runEntries_append_eq cfg classify sendOk pre (e :: suf) w wp okp hp]
      cases okp with
      | true => simp [runEntries_fail_head cfg classify sendOk wp e suf hfail]
      | false => simp
    have hcur : wp.cursorFile = w.cursorFile := by
      have hv := runEntries_cursorFile cfg classify sendOk
        (newEntries (e0 :: rest) (load_last_id w.cursorFile)).reverse w
      rw [hrunfull] at hv
      exact hv
    constructor
    · rw [poll_feed_cons, if_neg hne, hrunfull]
    · rw [poll_feed_cons, if_neg hne, hrunfull]
      exact hcur

/-- C2 (amended, witness): the amended statement at the concrete
three-item scenario of the counterexample. -/
theorem C2_amended_witness :
    poll_feed cfgD classifyNone sendFail2 worldEmpty [eI3, eI2, eI1] =
      (runEntries cfgD classifyNone sendFail2 worldEmpty [eI1]).1 ∧
    (poll_feed cfgD classifyNone sendFail2 worldEmpty [eI3, eI2, eI1]).cursorFile = none :=
  C2_amended_send_failure_is_fatal cfgD classifyNone sendFail2 worldEmpty
    [eI3, eI2, eI1] [eI1] [eI3] eI2 (by decide) (by decide)

/-- C3: when the diff yields a non-empty new-item sequence, a tick that runs
to completion stores the snapshot head's identifier as the cursor —
regardless of the classifier, i.e. of how many items were enriched — and a
tick aborted by a fatal (cycle-level) error leaves the cursor unchanged. -/
theorem C3_cursor_advances_to_snapshot_head (cfg : Config)
    (classify : Entry → Option Analysis) (sendOk : Entry → Bool) (w : World)
    (e0 : Entry) (rest : List Entry) (w1 : World) (ok : Bool)
    (hne : newEntries (e0 :: rest) (load_last_id w.cursorFile) ≠ [])
    (hrun : runEntries cfg classify sendOk w
      (newEntries (e0 :: rest) (load_last_id w.cursorFile)).reverse = (w1, ok)) :
    (ok = true → (poll_feed cfg classify sendOk w (e0 :: rest)).cursorFile = some e0.id) ∧
    (ok = false → (poll_feed cfg classify sendOk w (e0 :: rest)).cursorFile = w.cursorFile) := by
  have hw1 : w1.cursorFile = w.cursorFile := by
    have hv := runEntries_cursorFile cfg classify sendOk
      (newEntries (e0 :: rest) (load_last_id w.cursorFile)).reverse w
    rw [hrun] at hv
    exact hv
  constructor
  · intro hok
    subst hok
    rw [poll_feed_cons, if_neg hne, hrun]
    rfl
  · intro hok
    subst hok
    rw [poll_feed_cons, if_neg hne, hrun]
    exact hw1

/-- C3 (witness): a concrete completed one-item tick stores the head id. -/
theorem C3_witness :
    (poll_feed cfgD classifyNone sendAll worldEmpty [eA]).cursorFile = some ("a1") :=
  (C3_cursor_advances_to_snapshot_head cfgD classifyNone sendAll worldEmpty eA []
    worldA true (by decide) (by decide)).1 rfl

/-- C4: when the snapshot's newest item's identifier equals the stored
cursor, the diff is empty and the tick is a no-op: no cursor change, no
ledger change, no notification. -/
theorem C4_idempotent_restart (cfg : Config) (classify : Entry → Option Analysis)
    (sendOk : Entry → Bool) (w : World) (e0 : Entry) (rest : List Entry)
    (h : load_last_id w.cursorFile = some e0.id) :
    newEntries (e0 :: rest) (load_last_id w.cursorFile) = [] ∧
    poll_feed cfg classify sendOk w (e0 :: rest) = w := by
  have hne : newEntries (e0 :: rest) (load_last_id w.cursorFile) = [] := by
    unfold newEntries
    rw [h]
    simp
  exact ⟨hne, by rw [poll_feed_cons, if_pos hne]⟩

/-- C4 (witness): re-polling the same snapshot head is a no-op. -/
theorem C4_witness :
    poll_feed cfgD classifyNone sendAll worldCurA [eA] = worldCurA :=
  (C4_idempotent_restart cfgD classifyNone sendAll worldCurA eA [] (by decide)).2

/-- C8 (code_bug): `save_sentiment` stores the classifier's tickers verbatim
(`json.dumps` of the raw list, no uppercase / currency-prefix normalization),
so a record classified with `$BTC` is persisted as `$BTC` and the
most-recent-sentiment query for the normalized form `BTC` — the form
`check_sentiment_flip` uses — does not find it. -/
theorem C8_tickers_stored_unnormalized :
    (save_sentiment [] dbEmpty 0 entryT2 dollarBtcBuy).rows.map Row.tickers = [["$BTC"]] ∧
    get_last_sentiment (save_sentiment [] dbEmpty 0 entryT2 dollarBtcBuy) "BTC" = none := by
  decide

/-- C10: saving a non-empty, strip-invariant identifier and loading returns
the same identifier; loading with no cursor file, or after saving the empty
string, returns `none`. -/
theorem C10_cursor_round_trip (s : String) (file : Option String)
    (h1 : s ≠ "") (h2 : pyStrip s = s) :
    load_last_id (save_last_id file s) = some s ∧
    load_last_id none = none ∧
    (∀ f2 : Option String, load_last_id (save_last_id f2 ("")) = none) := by
  refine ⟨?_, rfl, fun f2 => rfl⟩
  show (if pyStrip s = "" then none else some (pyStrip s)) = some s
  rw [h2, if_neg h1]

/-- C10 (witness): round trip at the concrete identifier `t9`. -/
theorem C10_witness :
    load_last_id (save_last_id none ("t9")) = some ("t9") ∧
    load_last_id none = none ∧
    (∀ f2 : Option String, load_last_id (save_last_id f2 ("")) = none) :=
  C10_cursor_round_trip ("t9") none (by decide) (by decide)

/-- C5: for a snapshot `[new3, new2, new1, cursorItem, old...]` (newest
first) whose first three ids differ from the stored cursor while
`cursorItem` matches it, the diff collects `[new3, new2, new1]` and the
pipeline emits the base notifications in the order `new1, new2, new3` —
oldest first — whatever the classifier does. -/
theorem C5_order_preservation (cfg : Config) (classify : Entry → Option Analysis)
    (w : World) (n3 n2 n1 c : Entry) (olds : List Entry)
    (h3 : some n3.id ≠ load_last_id w.cursorFile)
    (h2 : some n2.id ≠ load_last_id w.cursorFile)
    (h1 : some n1.id ≠ load_last_id w.cursorFile)
    (hc : some c.id = load_last_id w.cursorFile) :
    newEntries (n3 :: n2 :: n1 :: c :: olds) (load_last_id w.cursorFile) = [n3, n2, n1] ∧
    (poll_feed cfg classify sendAll w (n3 :: n2 :: n1 :: c :: olds)).sent =
      w.sent ++ [nitter_to_twitter cfg.nitter_instances n1.link,
                 nitter_to_twitter cfg.nitter_instances n2.link,
                 nitter_to_twitter cfg.nitter_instances n3.link] := by
  have hnes : newEntries (n3 :: n2 :: n1 :: c :: olds) (load_last_id w.cursorFile)
      = [n3, n2, n1] := by
    rw [newEntries, if_neg h3, newEntries, if_neg h2, newEntries, if_neg h1,
      newEntries, if_pos hc]
  refine ⟨hnes, ?_⟩
  have hne : newEntries (n3 :: n2 :: n1 :: c :: olds) (load_last_id w.cursorFile) ≠ [] := by
    rw [hnes]
    simp
  obtain ⟨hok, hsent⟩ := runEntries_sendAll cfg classify sendAll
    (newEntries (n3 :: n2 :: n1 :: c :: olds) (load_last_id w.cursorFile)).reverse w
    (fun e _ => rfl)
  rcases hrun : runEntries cfg classify sendAll w
      (newEntries (n3 :: n2 :: n1 :: c :: olds) (load_last_id w.cursorFile)).reverse
    with ⟨w1, ok⟩
  rw [hrun] at hok hsent
  simp only at hok hsent
  subst hok
  rw [poll_feed_cons, if_neg hne, hrun]
  show w1.sent = _
  rw [hsent, hnes]
  rfl

/-- C5 (witness): the concrete snapshot is processed oldest-new-item first. -/
theorem C5_witness :
    newEntries [eI3, eI2, eI1, eC, eOld] (load_last_id worldCurC.cursorFile)
      = [eI3, eI2, eI1] ∧
    (poll_feed cfgD classifyNone sendAll worldCurC [eI3, eI2, eI1, eC, eOld]).sent =
      worldCurC.sent ++ [nitter_to_twitter cfgD.nitter_instances eI1.link,
                         nitter_to_twitter cfgD.nitter_instances eI2.link,
                         nitter_to_twitter cfgD.nitter_instances eI3.link] :=
  C5_order_preservation cfgD classifyNone worldCurC eI3 eI2 eI1 eC [eOld]
    (by decide) (by decide) (by decide) (by decide)

/-- C7: with a configured (non-empty) allow-list and a classified record
none of whose symbols matches it under the case/prefix-insensitive
normalization, the item's pipeline step sends the base notification and
changes nothing else — no ledger write, no flip alert, no analysis thread;
and with an empty allow-list every record passes the filter. -/
theorem C7_filter_exclusion (cfg : Config) (classify : Entry → Option Analysis)
    (sendOk : Entry → Bool) (w : World) (e : Entry) (a : Analysis)
    (hfilters : cfg.ticker_filters ≠ [])
    (hcl : classify e = some a)
    (hsend : sendOk e = true)
    (hdisj : ∀ t ∈ a.tickers,
      (cfg.ticker_filters.map normTicker).contains (normTicker t) = false) :
    processEntry cfg classify sendOk w e =
      Except.ok { w with sent := w.sent ++ [nitter_to_twitter cfg.nitter_instances e.link] } ∧
    (∀ (cfg2 : Config) (ts : List String),
      cfg2.ticker_filters = [] → should_analyze cfg2 ts = true) := by
  constructor
  · rw [processEntry_ok_eq cfg classify sendOk w e hsend]
    have hsa : should_analyze cfg a.tickers = false := by
      unfold should_analyze
      rw [if_neg (by simp [hfilters])]
      rw [List.any_eq_false]
      intro x hx
      rw [List.mem_map] at hx
      obtain ⟨t, ht, rfl⟩ := hx
      have hd := hdisj t ht
      simp at hd ⊢
      exact hd
    unfold enrichEntry
    simp [hcl, hsa]
  · intro cfg2 ts h
    unfold should_analyze
    rw [if_pos (by simp [h])]

/-- C7 (witness): with allow-list `{BTC}`, an `[ETH]` record only produces
the base notification. -/
theorem C7_witness :
    processEntry cfgBtcOnly (fun _ => some ethBuy) sendAll worldEmpty entryT2 =
      Except.ok { worldEmpty with
        sent := worldEmpty.sent ++
          [nitter_to_twitter cfgBtcOnly.nitter_instances entryT2.link] } ∧
    (∀ (cfg2 : Config) (ts : List String),
      cfg2.ticker_filters = [] → should_analyze cfg2 ts = true) :=
  C7_filter_exclusion cfgBtcOnly (fun _ => some ethBuy) sendAll worldEmpty entryT2 ethBuy
    (by decide) rfl rfl (by decide)

/-! ## The selection made by `ORDER BY created_at DESC LIMIT 1` -/

theorem pickLatest_mem : ∀ {l : List Row} {r : Row}, pickLatest l = some r → r ∈ l := by
  intro l
  induction l with
  | nil => intro r h; simp [pickLatest] at h
  | cons a rs ih =>
    intro r h
    rw [pickLatest] at h
    cases hp : pickLatest rs with
    | none =>
      rw [hp] at h
      simp only [Option.some.injEq] at h
      subst h
      exact List.mem_cons_self a rs
    | some b =>
      rw [hp] at h
      simp only at h
      split at h
      · simp only [Option.some.injEq] at h
        subst h
        exact List.mem_cons_of_mem a (ih hp)
      · simp only [Option.some.injEq] at h
        subst h
        exact List.mem_cons_self a rs

theorem get_last_sentiment_mem {db : DB} {t s : String}
    (h : get_last_sentiment db t = some s) : ∃ r ∈ db.rows, r.sentiment = s := by
  unfold get_last_sentiment at h
  cases hp : pickLatest (db.rows.filter (fun r => matchesTicker t r)) with
  | none => rw [hp] at h; simp at h
  | some rb =>
    rw [hp] at h
    simp at h
    have hm := pickLatest_mem hp
    rw [List.mem_filter] at hm
    exact ⟨rb, hm.1, h⟩

/-- C6: with flip alerts enabled and a ledger whose stored signals are all
in {BUY, SELL, NEUTRAL}, `check_sentiment_flip` computes exactly the
spec-side emission rule `specFlipEvents`: no events for a NEUTRAL new
signal; per symbol, in declaration order, one event exactly when the prior
signal is BUY or SELL and differs from the new signal, none when the prior
is absent or NEUTRAL. -/
theorem C6_flip_detector_rules (cfg : Config) (db : DB) (a : Analysis)
    (hEn : cfg.flip_alerts_enabled = true)
    (hdb : ∀ r ∈ db.rows,
      r.sentiment = "BUY" ∨ r.sentiment = "SELL" ∨ r.sentiment = "NEUTRAL") :
    (a.sentiment = "NEUTRAL" → check_sentiment_flip cfg db a = []) ∧
    check_sentiment_flip cfg db a = specFlipEvents db a := by
  have key : check_sentiment_flip cfg db a = specFlipEvents db a := by
    simp only [check_sentiment_flip, specFlipEvents]
    rw [if_neg (by simp [hEn])]
    by_cases hns : strUpper a.sentiment = "NEUTRAL"
    · rw [if_pos hns, if_pos hns]
    · rw [if_neg hns, if_neg hns]
      apply List.filterMap_congr
      intro ticker _
      dsimp only
      cases hq : get_last_sentiment db (normTicker ticker) with
      | none => rfl
      | some old =>
        obtain ⟨r, hr, hrs⟩ := get_last_sentiment_mem hq
        have h3 := hdb r hr
        rw [hrs] at h3
        rcases h3 with h3 | h3 | h3 <;> subst h3
        · exact if_congr
            (Iff.intro (fun h => ⟨Or.inl rfl, h.2.2⟩)
              (fun h => ⟨by decide, by decide, h.2⟩)) rfl rfl
        · exact if_congr
            (Iff.intro (fun h => ⟨Or.inr rfl, h.2.2⟩)
              (fun h => ⟨by decide, by decide, h.2⟩)) rfl rfl
        · exact (if_neg (fun h => h.2.1 rfl)).trans
            (if_neg (by rintro ⟨h1 | h1, -⟩ <;> exact absurd h1 (by decide))).symm
  refine ⟨fun hn => ?_, key⟩
  rw [key]
  simp only [specFlipEvents]
  rw [if_pos (show strUpper a.sentiment = "NEUTRAL" by rw [hn]; decide)]

/-- C6 (witness): the detector agrees with the spec rule on the concrete
BUY-ledger / SELL-record scenario. -/
theorem C6_witness :
    check_sentiment_flip cfgD dbBtc sellBtc = specFlipEvents dbBtc sellBtc :=
  (C6_flip_detector_rules cfgD dbBtc sellBtc rfl (by decide)).2

/-! ## Plain tickers, `LIKE` matching and list membership -/

theorem plainTicker_all {t : String} (h : plainTicker t = true) :
    t.toList.all plainChar = true := by
  unfold plainTicker at h
  rw [Bool.and_eq_true] at h
  exact h.2

theorem toUpper_of_plainChar {c : Char} (h : plainChar c = true) : c.toUpper = c := by
  have h2 := of_decide_eq_true h
  have h3 : ¬(Char.toNat c ≥ 97 ∧ Char.toNat c ≤ 122) := by omega
  simp [Char.toUpper, h3]

theorem map_toUpper_eq_self {l : List Char} (h : ∀ c ∈ l, c.toUpper = c) :
    l.map Char.toUpper = l := by
  induction l with
  | nil => rfl
  | cons c l ih =>
    rw [List.map_cons, h c (by simp), ih (fun x hx => h x (by simp [hx]))]

theorem toUpper_quoted {t : String} (h : t.toList.all plainChar = true) :
    (quotedChars t).map Char.toUpper = quotedChars t := by
  apply map_toUpper_eq_self
  intro c hc
  rw [quotedChars] at hc
  rcases List.mem_cons.mp hc with rfl | hc2
  · decide
  · rcases List.mem_append.mp hc2 with hc3 | hc3
    · exact toUpper_of_plainChar (List.all_eq_true.mp h c hc3)
    · rw [List.mem_singleton.mp hc3]
      decide

theorem toUpper_elems {ts : List String} (h : ∀ t ∈ ts, plainTicker t = true) :
    (elemsChars ts).map Char.toUpper = elemsChars ts := by
  induction ts with
  | nil => rfl
  | cons t ts ih =>
    cases ts with
    | nil => exact toUpper_quoted (plainTicker_all (h t (by simp)))
    | cons t2 ts2 =>
      show (quotedChars t ++ ',' :: ' ' :: elemsChars (t2 :: ts2)).map Char.toUpper = _
      rw [List.map_append, toUpper_quoted (plainTicker_all (h t (by simp))),
        List.map_cons, List.map_cons, ih (fun x hx => h x (by simp [hx]))]
      rfl

theorem toUpper_json {ts : List String} (h : ∀ t ∈ ts, plainTicker t = true) :
    (jsonChars ts).map Char.toUpper = jsonChars ts := by
  rw [jsonChars, List.map_append, List.map_cons, toUpper_elems h]
  rfl

theorem not_mem_quoted_of_plain {s : String} (h : s.toList.all plainChar = true)
    {c : Char} (hc : plainChar c = false) (hc2 : c ≠ '"') : c ∉ quotedChars s := by
  intro hm
  rw [quotedChars] at hm
  rcases List.mem_cons.mp hm with h1 | h1
  · exact hc2 h1
  · rcases List.mem_append.mp h1 with h2 | h2
    · rw [List.all_eq_true.mp h c h2] at hc
      cases hc
    · exact hc2 (List.mem_singleton.mp h2)

theorem quoted_ne_nil (s : String) : quotedChars s ≠ [] := by
  simp [quotedChars]

theorem infix_of_cons_not_mem {c : Char} {p l : List Char} (hc : c ∉ p) (hp : p ≠ [])
    (h : p <:+: c :: l) : p <:+: l := by
  obtain ⟨pre, suf, heq⟩ := h
  cases pre with
  | nil =>
    cases p with
    | nil => exact absurd rfl hp
    | cons a q =>
      simp only [List.nil_append, List.cons_append] at heq
      injection heq with h1 _
      subst h1
      exact absurd (List.mem_cons_self a q) hc
  | cons b pre2 =>
    simp only [List.cons_append] at heq
    injection heq with _ h2
    exact ⟨pre2, suf, h2⟩

theorem infix_of_concat_not_mem {c : Char} {p l : List Char} (hc : c ∉ p)
    (h : p <:+: l ++ [c]) : p <:+: l := by
  by_cases hp : p = []
  · subst hp
    exact List.nil_infix
  · rw [← List.reverse_infix] at h ⊢
    rw [List.reverse_append] at h
    simp only [List.reverse_cons, List.reverse_nil, List.nil_append, List.singleton_append] at h
    exact infix_of_cons_not_mem (by simpa using hc) (by simpa using hp) h

theorem infix_append_cases :
    ∀ (A : List Char) {p B : List Char}, p <:+: A ++ B →
      p <:+: A ∨ p <:+: B ∨
        ∃ x y, p = x ++ y ∧ x ≠ [] ∧ y ≠ [] ∧ x <:+ A ∧ y <+: B := by
  intro A
  induction A with
  | nil => intro p B h; exact Or.inr (Or.inl h)
  | cons a A2 ih =>
    intro p B h
    obtain ⟨pre, suf, heq⟩ := h
    cases pre with
    | nil =>
      cases p with
      | nil => exact Or.inl List.nil_infix
      | cons x q =>
        simp only [List.nil_append, List.cons_append] at heq
        injection heq with h1 h2
        subst h1
        rcases List.append_eq_append_iff.mp h2 with ⟨w, hw1, _⟩ | ⟨w, hw1, hw2⟩
        · left
          exact List.IsPrefix.isInfix ⟨w, by rw [hw1]; rfl⟩
        · cases w with
          | nil =>
            left
            rw [List.append_nil] at hw1
            subst hw1
            exact List.infix_rfl
          | cons w0 w2 =>
            right; right
            refine ⟨x :: A2, w0 :: w2, ?_, by simp, by simp, List.suffix_rfl, ⟨suf, hw2.symm⟩⟩
            rw [hw1]
            rfl
    | cons b pre2 =>
      simp only [List.cons_append] at heq
      injection heq with h1 h2
      subst h1
      rcases ih ⟨pre2, suf, h2⟩ with h3 | h3 | ⟨x, y, hxy, hx0, hy0, hx, hy⟩
      · left
        obtain ⟨s, t, hst⟩ := h3
        exact ⟨b :: s, t, by rw [← hst]; rfl⟩
      · right; left; exact h3
      · right; right
        exact ⟨x, y, hxy, hx0, hy0, hx.trans (List.suffix_cons b A2), hy⟩

theorem count_quote_quoted {t : String} (h : t.toList.all plainChar = true) :
    List.count '"' (quotedChars t) = 2 := by
  have hq : '"' ∉ t.toList := by
    intro hm
    have h2 := List.all_eq_true.mp h _ hm
    rw [show plainChar ('"') = false from by decide] at h2
    cases h2
  have hq2 : List.count '"' t.data = 0 := List.count_eq_zero.mpr hq
  rw [quotedChars]
  simp [List.count_cons, List.count_append, hq2]

theorem quoted_reverse (x : String) :
    (quotedChars x).reverse = '"' :: (x.toList.reverse ++ ['"']) := by
  rw [quotedChars]
  simp

theorem quoted_infix_quoted {s t : String} (hs : plainTicker s = true)
    (ht : plainTicker t = true) (h : quotedChars s <:+: quotedChars t) : s = t := by
  obtain ⟨pre, suf, heq⟩ := h
  have hcs := count_quote_quoted (plainTicker_all hs)
  have hct := count_quote_quoted (plainTicker_all ht)
  have hcc := congrArg (List.count '"') heq
  rw [List.count_append, List.count_append, hcs, hct] at hcc
  have hpre0 : List.count '"' pre = 0 := by omega
  have hsuf0 : List.count '"' suf = 0 := by omega
  have hpre : pre = [] := by
    cases hpp : pre with
    | nil => rfl
    | cons a pre2 =>
      exfalso
      subst hpp
      unfold quotedChars at heq
      simp only [List.cons_append] at heq
      injection heq with h1 _
      subst h1
      simp [List.count_cons] at hpre0
  subst hpre
  rw [List.nil_append] at heq
  have hsuf : suf = [] := by
    have hrev := congrArg List.reverse heq
    rw [List.reverse_append, quoted_reverse, quoted_reverse] at hrev
    cases hsr : suf.reverse with
    | nil => simpa using congrArg List.reverse hsr
    | cons a u =>
      exfalso
      rw [hsr] at hrev
      simp only [List.cons_append] at hrev
      injection hrev with h1 _
      have ha : a ∈ suf := by
        rw [← List.mem_reverse, hsr]
        simp
      rw [h1] at ha
      exact (List.count_eq_zero.mp hsuf0) ha
  subst hsuf
  rw [List.append_nil] at heq
  rw [quotedChars, quotedChars] at heq
  injection heq with _ h2
  exact String.ext (List.append_cancel_right h2)

theorem mem_of_quoted_infix_elems {s : String} (hs : plainTicker s = true) :
    ∀ {ts : List String}, (∀ t ∈ ts, plainTicker t = true) →
      quotedChars s <:+: elemsChars ts → s ∈ ts := by
  intro ts
  induction ts with
  | nil =>
    intro _ h
    have h2 := List.infix_nil.mp h
    exact absurd h2 (quoted_ne_nil s)
  | cons t ts ih =>
    intro hts h
    cases ts with
    | nil =>
      rw [quoted_infix_quoted hs (hts t (by simp)) h]
      simp
    | cons t2 ts2 =>
      have heq : elemsChars (t :: t2 :: ts2) =
          quotedChars t ++ ',' :: ' ' :: elemsChars (t2 :: ts2) := rfl
      rw [heq] at h
      have hcomma : ',' ∉ quotedChars s :=
        not_mem_quoted_of_plain (plainTicker_all hs) (by decide) (by decide)
      have hspace : ' ' ∉ quotedChars s :=
        not_mem_quoted_of_plain (plainTicker_all hs) (by decide) (by decide)
      rcases infix_append_cases _ h with h2 | h2 | ⟨x, y, hxy, _, hy0, _, hy⟩
      · rw [quoted_infix_quoted hs (hts t (by simp)) h2]
        simp
      · have h3 := infix_of_cons_not_mem hcomma (quoted_ne_nil s) h2
        have h4 := infix_of_cons_not_mem hspace (quoted_ne_nil s) h3
        exact List.mem_cons_of_mem t (ih (fun x hx => hts x (by simp [hx])) h4)
      · exfalso
        obtain ⟨ytail, hyeq⟩ := hy
        cases y with
        | nil => exact hy0 rfl
        | cons y0 y2 =>
          simp only [List.cons_append] at hyeq
          injection hyeq with hy1 _
          have hmem : y0 ∈ quotedChars s := by
            rw [hxy]
            exact List.mem_append_right x (by simp)
          rw [hy1] at hmem
          exact hcomma hmem

theorem quoted_infix_elems_of_mem {s : String} :
    ∀ {ts : List String}, s ∈ ts → quotedChars s <:+: elemsChars ts := by
  intro ts
  induction ts with
  | nil => intro h; simp at h
  | cons t ts ih =>
    intro h
    rcases List.mem_cons.mp h with rfl | hmem
    · cases ts with
      | nil => exact List.infix_rfl
      | cons t2 ts2 => exact (List.prefix_append (quotedChars s) _).isInfix
    · cases ts with
      | nil => simp at hmem
      | cons t2 ts2 =>
        obtain ⟨u, v, huv⟩ := ih hmem
        refine ⟨quotedChars t ++ ',' :: ' ' :: u, v, ?_⟩
        show quotedChars t ++ ',' :: ' ' :: u ++ quotedChars s ++ v =
          quotedChars t ++ ',' :: ' ' :: elemsChars (t2 :: ts2)
        rw [← huv]
        simp

theorem matchesTicker_eq_mem {s : String} {r : Row} (hs : plainTicker s = true)
    (ht : ∀ t ∈ r.tickers, plainTicker t = true) :
    matchesTicker s r = decide (s ∈ r.tickers) := by
  unfold matchesTicker
  rw [toUpper_quoted (plainTicker_all hs), toUpper_json ht]
  by_cases hmem : s ∈ r.tickers
  · rw [decide_eq_true hmem]
    apply decide_eq_true
    obtain ⟨u, v, huv⟩ := quoted_infix_elems_of_mem hmem
    refine ⟨'[' :: u, v ++ [']'], ?_⟩
    show '[' :: u ++ quotedChars s ++ (v ++ [']']) = '[' :: elemsChars r.tickers ++ [']']
    rw [← huv]
    simp
  · rw [decide_eq_false hmem]
    apply decide_eq_false
    intro hinf
    apply hmem
    have hlb : '[' ∉ quotedChars s :=
      not_mem_quoted_of_plain (plainTicker_all hs) (by decide) (by decide)
    have hrb : ']' ∉ quotedChars s :=
      not_mem_quoted_of_plain (plainTicker_all hs) (by decide) (by decide)
    have h1 : quotedChars s <:+: '[' :: elemsChars r.tickers :=
      infix_of_concat_not_mem hrb hinf
    have h2 : quotedChars s <:+: elemsChars r.tickers :=
      infix_of_cons_not_mem hlb (quoted_ne_nil s) h1
    exact mem_of_quoted_infix_elems hs ht h2

theorem rowLE_refl (a : Row) : rowLE a a = true := by
  simp [rowLE]

theorem rowLE_total (a b : Row) : rowLE a b = true ∨ rowLE b a = true := by
  simp only [rowLE, decide_eq_true_eq]
  omega

theorem rowLE_trans {a b c : Row} (h1 : rowLE a b = true) (h2 : rowLE b c = true) :
    rowLE a c = true := by
  simp only [rowLE, decide_eq_true_eq] at h1 h2 ⊢
  omega

theorem pickLatest_none_iff {l : List Row} : pickLatest l = none ↔ l = [] := by
  cases l with
  | nil => simp [pickLatest]
  | cons r rs =>
    rw [pickLatest]
    cases hp : pickLatest rs with
    | none => simp
    | some b =>
      simp only
      split <;> simp

theorem pickLatest_max : ∀ {l : List Row} {b : Row}, pickLatest l = some b →
    ∀ r ∈ l, rowLE r b = true := by
  intro l
  induction l with
  | nil => intro b _ r hr; simp at hr
  | cons a rs ih =>
    intro b h r hr
    rw [pickLatest] at h
    cases hp : pickLatest rs with
    | none =>
      rw [hp] at h
      simp only [Option.some.injEq] at h
      subst h
      have hrs : rs = [] := pickLatest_none_iff.mp hp
      subst hrs
      rw [List.mem_singleton.mp hr]
      exact rowLE_refl a
    | some b2 =>
      rw [hp] at h
      simp only at h
      rcases List.mem_cons.mp hr with rfl | hmem
      · split at h
        · next hle =>
          simp only [Option.some.injEq] at h
          subst h
          exact hle
        · simp only [Option.some.injEq] at h
          subst h
          exact rowLE_refl r
      · have hrb2 := ih hp r hmem
        split at h
        · simp only [Option.some.injEq] at h
          subst h
          exact hrb2
        · next hle =>
          simp only [Option.some.injEq] at h
          subst h
          exact rowLE_trans hrb2 ((rowLE_total a b2).resolve_left hle)

theorem pickLatest_dominant : ∀ {l : List Row} {b : Row},
    (∀ r ∈ l, rowLE r b = true) → pickLatest (l ++ [b]) = some b := by
  intro l
  induction l with
  | nil => intro b _; rfl
  | cons a l ih =>
    intro b hall
    rw [List.cons_append, pickLatest, ih (fun r hr => hall r (by simp [hr]))]
    simp only
    rw [if_pos (hall a (by simp))]

/-- C9: for a plain (normalized, uppercase-alphanumeric) symbol on a ledger
whose stored tickers are all plain: the query returns the signal of the
`rowLE`-greatest row whose ticker set contains the symbol — latest
`created_at`, ties broken toward the larger rowid, i.e. the later insert —
it returns `none` when no row mentions the symbol, and it reflects every
prior successful upsert: after `save_sentiment` at a fresh (strictly later)
timestamp, including a replacement of a row with the same `tweet_id`, the
query for any symbol of the new record returns the new record's signal. -/
theorem C9_most_recent_sentiment (db : DB) (sym : String)
    (hsym : plainTicker sym = true)
    (hdb : ∀ r ∈ db.rows, ∀ t ∈ r.tickers, plainTicker t = true) :
    ((∃ r ∈ db.rows, sym ∈ r.tickers) →
      ∃ rb ∈ db.rows, sym ∈ rb.tickers ∧
        get_last_sentiment db sym = some rb.sentiment ∧
        ∀ r2 ∈ db.rows, sym ∈ r2.tickers → rowLE r2 rb = true) ∧
    ((∀ r ∈ db.rows, sym ∉ r.tickers) → get_last_sentiment db sym = none) ∧
    (∀ (instances : List String) (now : Nat) (e : Entry) (a : Analysis),
      (∀ r ∈ db.rows, r.created_at < now) →
      (∀ t ∈ a.tickers, plainTicker t = true) →
      sym ∈ a.tickers →
      get_last_sentiment (save_sentiment instances db now e a) sym = some a.sentiment) := by
  have hfilter : db.rows.filter (fun r => matchesTicker sym r) =
      db.rows.filter (fun r => decide (sym ∈ r.tickers)) :=
    List.filter_congr (fun r hr => by rw [matchesTicker_eq_mem hsym (hdb r hr)])
  refine ⟨?_, ?_, ?_⟩
  · rintro ⟨r, hr, hmem⟩
    have hrf : r ∈ db.rows.filter (fun r => decide (sym ∈ r.tickers)) :=
      List.mem_filter.mpr ⟨hr, decide_eq_true hmem⟩
    cases hp : pickLatest (db.rows.filter (fun r => decide (sym ∈ r.tickers))) with
    | none =>
      exfalso
      rw [pickLatest_none_iff.mp hp] at hrf
      simp at hrf
    | some rb =>
      have hrbmem := pickLatest_mem hp
      rw [List.mem_filter] at hrbmem
      refine ⟨rb, hrbmem.1, of_decide_eq_true hrbmem.2, ?_, ?_⟩
      · unfold get_last_sentiment
        rw [hfilter, hp]
        rfl
      · intro r2 hr2 hmem2
        exact pickLatest_max hp r2 (List.mem_filter.mpr ⟨hr2, decide_eq_true hmem2⟩)
  · intro hall
    unfold get_last_sentiment
    rw [hfilter, List.filter_eq_nil_iff.mpr (fun r hr => by simp [hall r hr])]
    rfl
  · intro instances now e a hnow hta hmem
    have hdb2 : ∀ r ∈ (save_sentiment instances db now e a).rows,
        ∀ t ∈ r.tickers, plainTicker t = true := by
      intro r hr
      unfold save_sentiment at hr
      rcases List.mem_append.mp hr with hr2 | hr2
      · exact hdb r (List.mem_of_mem_filter hr2)
      · rw [List.mem_singleton.mp hr2]
        exact hta
    have hfilter2 : (save_sentiment instances db now e a).rows.filter
          (fun r => matchesTicker sym r) =
        (save_sentiment instances db now e a).rows.filter
          (fun r => decide (sym ∈ r.tickers)) :=
      List.filter_congr (fun r hr => by rw [matchesTicker_eq_mem hsym (hdb2 r hr)])
    unfold get_last_sentiment
    rw [hfilter2]
    unfold save_sentiment
    rw [List.filter_append]
    simp only [List.filter_cons, List.filter_nil]
    rw [if_pos (decide_eq_true hmem)]
    rw [pickLatest_dominant ?dom]
    · rfl
    case dom =>
      intro r hr
      have hr2 : r ∈ db.rows :=
        List.mem_of_mem_filter (List.mem_of_mem_filter hr)
      have hlt := hnow r hr2
      simp only [rowLE, decide_eq_true_eq]
      left
      exact hlt

/-- C9 (witness): on the concrete one-record BTC ledger, the query returns
the signal of that record, which is maximal. -/
theorem C9_witness :
    ∃ rb ∈ dbBtc.rows, "BTC" ∈ rb.tickers ∧
      get_last_sentiment dbBtc "BTC" = some rb.sentiment ∧
      ∀ r2 ∈ dbBtc.rows, "BTC" ∈ r2.tickers → rowLE r2 rb = true :=
  (C9_most_recent_sentiment dbBtc "BTC" (by decide) (by decide)).1
    ⟨rowBtcBuy, by decide, by decide⟩

end TwitterBot
